import Mathlib

/-!
Shallow embedding of the lite-rpc core subsystems named by the claims:

* `src/address_lookup_tables/src/alt_store.rs` — the ALT store
  (`ALTStore::load_alts_list`, `save_account`, `reload_alt_account`,
  `load_accounts`, `get_accounts`, `serialize_binary`, `load_binary`,
  `BinaryALTData`).
* `src/util/src/histogram_percentiles.rs` — `calculate_percentiles` and
  `calculate_cummulative`.
* the fastest-wins block multiplexer used by
  `src/cluster-endpoints/src/grpc_mutliplex.rs` (the implementation,
  `geyser_grpc_connector::grpcmultiplex_fastestwins::create_multiplexed_stream`,
  is an external dependency not present under `src/`; it is modelled from the
  spec where indicated).

Modelling conventions:

* `Pubkey` is an opaque 32-byte value, modelled as `Nat` (bounded by `2 ^ 256`
  where the byte-level snapshot encoding needs it).
* The `DashMap<Pubkey, Vec<Pubkey>>` is modelled as an association list
  `ALTMap` with `mapLookup` / `mapInsert`; `mapInsert` overwrites the binding
  for an existing key, as `DashMap::insert` does.
* Rust panics (`unwrap` on a decode failure, out-of-bounds `Index` on a `Vec`,
  a failed `assert!`) are modelled as the `.error` branch of `Except`.
* Upstream RPC I/O is modelled by oracles passed explicitly: `fetch` gives the
  raw account bytes that `get_account(s)_with_commitment` would return
  (`none` = transport error or account not found), and `deser` gives the
  result of `AddressLookupTable::deserialize` on raw bytes (`none` = decode
  error), both being external library calls.
* `f64`/`f32` values flowing through the percentile utility are modelled as
  `ℚ`: the utility only copies, compares, adds and divides by 100, and every
  concrete value appearing in the settled claims is exactly representable.
  The model's arithmetic is exact where IEEE `f64` rounds: in particular the
  loop target `value_sum * percentile / 100.0` of `calculate_cummulative` is
  computed exactly here, while in the source rounding can push it above
  `value_sum` (e.g. for the single value 1.299999999999557) and abort the
  loop out of bounds; such rounding-induced aborts have no counterpart in
  this model, so no theorem below asserts that the accumulation loop returns
  normally.
-/

/-! ## ALT store: map model -/

instance [DecidableEq ε] [DecidableEq α] : DecidableEq (Except ε α) :=
  fun a b =>
  match a, b with
  | .error e, .error f =>
    match decEq e f with
    | isTrue h => isTrue (h ▸ rfl)
    | isFalse h => isFalse (fun hc => h (by injection hc))
  | .ok x, .ok y =>
    match decEq x y with
    | isTrue h => isTrue (h ▸ rfl)
    | isFalse h => isFalse (fun hc => h (by injection hc))
  | .error _, .ok _ => isFalse (fun hc => by injection hc)
  | .ok _, .error _ => isFalse (fun hc => by injection hc)

abbrev Pubkey := Nat

abbrev ALTMap := List (Pubkey × List Pubkey)

/-- Lookup in the cached map (`DashMap::get`): the binding of the first
matching key. -/
def mapLookup (m : ALTMap) (k : Pubkey) : Option (List Pubkey) :=
  (m.find? (fun p => p.1 == k)).map Prod.snd

/-- Insert into the cached map (`DashMap::insert`): overwrite the binding of
`k`, keeping every other key's binding. -/
def mapInsert (m : ALTMap) (k : Pubkey) (v : List Pubkey) : ALTMap :=
  (k, v) :: m.filter (fun p => p.1 != k)

theorem mapLookup_mapInsert_self (m : ALTMap) (k : Pubkey) (v : List Pubkey) :
    mapLookup (mapInsert m k v) k = some v := by
  simp [mapLookup, mapInsert, List.find?]

theorem find?_filter_keyNe (rest : ALTMap) (k k' : Pubkey) (h : k' ≠ k) :
    List.find? (fun p => p.1 == k') (rest.filter (fun p => p.1 != k)) =
      List.find? (fun p => p.1 == k') rest := by
  induction rest with
  | nil => rfl
  | cons p rest ih =>
    rw [List.filter_cons]
    by_cases hp : p.1 = k
    · have h1 : (p.1 != k) = false := by simp [hp]
      have h2 : (p.1 == k') = false := by simp [hp, Ne.symm h]
      simp only [h1, Bool.false_eq_true, if_false]
      rw [ih]
      exact (List.find?_cons_of_neg rest (by simp [hp, Ne.symm h])).symm
    · have h1 : (p.1 != k) = true := by simp [hp]
      simp only [h1, if_true]
      simp only [List.find?]
      cases hpk : (p.1 == k') with
      | true => rfl
      | false => exact ih

theorem mapLookup_mapInsert_ne (m : ALTMap) (k k' : Pubkey) (v : List Pubkey)
    (h : k' ≠ k) : mapLookup (mapInsert m k v) k' = mapLookup m k' := by
  have hk : (k == k') = false := by simp [Ne.symm h]
  simp only [mapLookup, mapInsert, List.find?, hk]
  rw [find?_filter_keyNe m k k' h]

/-! ## ALT store: operations (`ALTStore`, alt_store.rs)

The oracles stand for the external calls:
`fetch addr` = the raw data of the account returned by the RPC client for
`addr` (`none` when the request errors or the account is missing), and
`deser bytes` = `AddressLookupTable::deserialize(bytes)` giving the table's
address list (`none` when deserialization fails). -/

/-- `ALTStore::save_account`: decode the raw bytes and overwrite the cached
entry.  The source calls `.unwrap()` on the decode result, so a decode
failure is a panic (`.error ()`). -/
def save_account (deser : List Nat → Option (List Pubkey)) (m : ALTMap)
    (address : Pubkey) (data : List Nat) : Except Unit ALTMap :=
  match deser data with
  | none => .error ()
  | some addresses => .ok (mapInsert m address addresses)

/-- `ALTStore::reload_alt_account`: refetch one address.  A transport error or
a missing account only logs; the map is left as it was.  A fetched account is
passed to `save_account`. -/
def reload_alt_account (fetch : Pubkey → Option (List Nat))
    (deser : List Nat → Option (List Pubkey)) (m : ALTMap) (address : Pubkey) :
    Except Unit ALTMap :=
  match fetch address with
  | none => .ok m
  | some data => save_account deser m address data

/-- The indexing loop of `ALTStore::load_accounts`:
`accounts.iter().map(|i| alt_account[*i as usize]).collect_vec()`.
Rust's `Vec` indexing panics when an index is out of bounds, hence `.error`. -/
def indexAll (table : List Pubkey) (accounts : List Nat) :
    Except Unit (List Pubkey) :=
  match accounts with
  | [] => .ok []
  | i :: rest =>
    match table.get? i with
    | none => .error ()
    | some v =>
      match indexAll table rest with
      | .error e => .error e
      | .ok vs => .ok (v :: vs)

/-- The reload decision of `ALTStore::load_accounts`: reload when the table is
absent, or when some requested byte index is `>=` the cached length. -/
def doReload (m : ALTMap) (alt : Pubkey) (accounts : List Nat) : Bool :=
  match mapLookup m alt with
  | some lookup_table => accounts.any (fun x => lookup_table.length ≤ x)
  | none => true

/-- `ALTStore::load_accounts`: optionally reload, then index the cached table.
Returns the resolved list (`none` when the table is still absent) and the
resulting map. -/
def load_accounts (fetch : Pubkey → Option (List Nat))
    (deser : List Nat → Option (List Pubkey)) (m : ALTMap) (alt : Pubkey)
    (accounts : List Nat) : Except Unit (Option (List Pubkey) × ALTMap) :=
  match (if doReload m alt accounts then reload_alt_account fetch deser m alt
      else .ok m) with
  | .error e => .error e
  | .ok m' =>
    match mapLookup m' alt with
    | some alt_account =>
      match indexAll alt_account accounts with
      | .error e => .error e
      | .ok vs => .ok (some vs, m')
    | none => .ok (none, m')

/-! ## ALT store: the preload batching of `ALTStore::load_alts_list` -/

/-- Rust's `slice::chunks(n)`: split into consecutive chunks of length `n`,
the last possibly shorter.  (`chunks` panics on `n = 0`; the source only uses
1000 and 100.) -/
def chunksOf (n : Nat) : List α → List (List α)
  | [] => []
  | a :: rest =>
    if n = 0 then []
    else (a :: rest).take n :: chunksOf n ((a :: rest).drop n)
termination_by l => l.length
decreasing_by
  rename_i hn
  have := (a :: rest).length_drop n
  have hpos : 0 < (a :: rest).length := by simp
  omega

theorem chunksOf_flatten (n : Nat) (l : List α) (hn : n ≠ 0) :
    (chunksOf n l).flatten = l := by
  induction l using chunksOf.induct n with
  | case1 => rw [chunksOf]; rfl
  | case2 a rest h => exact absurd h hn
  | case3 a rest h ih =>
    rw [chunksOf, if_neg h]
    simp only [List.flatten_cons]
    rw [ih, List.take_append_drop]

theorem mem_chunksOf_length_le (n : Nat) (l : List α) (c : List α)
    (hc : c ∈ chunksOf n l) : c.length ≤ n := by
  induction l using chunksOf.induct n with
  | case1 => rw [chunksOf] at hc; simp at hc
  | case2 a rest h => rw [chunksOf, if_pos h] at hc; simp at hc
  | case3 a rest h ih =>
    rw [chunksOf, if_neg h] at hc
    rcases List.mem_cons.mp hc with hc | hc
    · subst hc
      simp
    · exact ih hc

theorem chunksOf_length_le (n k : Nat) (l : List α) (hn : n ≠ 0)
    (hl : l.length ≤ n * k) : (chunksOf n l).length ≤ k := by
  induction k generalizing l with
  | zero =>
    have hnil : l = [] := by
      rw [← List.length_eq_zero]
      omega
    subst hnil
    rw [chunksOf]
    simp
  | succ k ih =>
    match l with
    | [] => rw [chunksOf]; simp
    | a :: rest =>
      rw [chunksOf, if_neg hn]
      simp only [List.length_cons, Nat.succ_le_succ_iff]
      apply ih
      have := (a :: rest).length_drop n
      have hmul : n * k + n = n * (k + 1) := by ring
      omega

/-- The batching plan of `ALTStore::load_alts_list`: filter out the addresses
already cached, then split the missing ones into rounds of at most 1000
(`chunks(1000)`), each round split into batches of at most 100
(`chunks(100)`); the batches of one round are spawned concurrently and the
round is awaited under a timeout of `loadAltsRoundTimeoutSecs` seconds. -/
def load_alts_list_plan (m : ALTMap) (alts_list : List Pubkey) :
    List (List (List Pubkey)) :=
  let missing := alts_list.filter (fun x => (mapLookup m x).isNone)
  (chunksOf 1000 missing).map (fun round => chunksOf 100 round)

/-- `Duration::from_secs(60)` in `ALTStore::load_alts_list`. -/
def loadAltsRoundTimeoutSecs : Nat := 60

/-- `ALTStore::get_accounts`: a resolution failure (`None` from
`load_accounts`) becomes the empty list. -/
def get_accounts (fetch : Pubkey → Option (List Nat))
    (deser : List Nat → Option (List Pubkey)) (m : ALTMap) (alt : Pubkey)
    (accounts : List Nat) : Except Unit (List Pubkey × ALTMap) :=
  match load_accounts fetch deser m alt accounts with
  | .error e => .error e
  | .ok (x, m') => .ok (x.getD [], m')

/-! ## ALT store: binary snapshot (`BinaryALTData`, bincode encoding)

`ALTStore::serialize_binary` bincode-encodes `BinaryALTData { data }` where
`data` is the list of `(Pubkey, Vec<Pubkey>)` pairs of the map;
`ALTStore::load_binary` bincode-decodes and inserts every pair.  Bincode's
default (fixint, little-endian) encoding is modelled byte for byte: a `Vec`
is a `u64` length followed by the elements, a `Pubkey` is its 32 raw bytes.
Both directions call `.unwrap()`, so a decode failure is a panic. -/

/-- Little-endian encoding of `n` into `w` bytes. -/
def natToLE : Nat → Nat → List Nat
  | 0, _ => []
  | w + 1, n => n % 256 :: natToLE w (n / 256)

/-- Little-endian decoding of a byte list. -/
def leToNat : List Nat → Nat
  | [] => 0
  | b :: bs => b + 256 * leToNat bs

theorem natToLE_length (w n : Nat) : (natToLE w n).length = w := by
  induction w generalizing n with
  | zero => rfl
  | succ w ih => simp [natToLE, ih]

theorem leToNat_natToLE (w n : Nat) (h : n < 256 ^ w) :
    leToNat (natToLE w n) = n := by
  induction w generalizing n with
  | zero =>
    simp only [Nat.pow_zero, Nat.lt_one_iff] at h
    simp [natToLE, leToNat, h]
  | succ w ih =>
    have hdiv : n / 256 < 256 ^ w := by
      rw [Nat.div_lt_iff_lt_mul (by norm_num)]
      calc n < 256 ^ (w + 1) := h
        _ = 256 ^ w * 256 := by ring
    simp only [natToLE, leToNat, ih _ hdiv]
    omega

/-- Consume `w` bytes from the front as a little-endian number. -/
def readNat (w : Nat) (bs : List Nat) : Option (Nat × List Nat) :=
  if w ≤ bs.length then some (leToNat (bs.take w), bs.drop w) else none

theorem readNat_natToLE (w n : Nat) (rest : List Nat) (h : n < 256 ^ w) :
    readNat w (natToLE w n ++ rest) = some (n, rest) := by
  have hlen : (natToLE w n).length = w := natToLE_length w n
  rw [readNat, if_pos]
  · rw [List.take_left' hlen, List.drop_left' hlen, leToNat_natToLE w n h]
  · simp [hlen]

/-- Consume `k` elements with the element decoder `readElem`. -/
def readCount (readElem : List Nat → Option (α × List Nat)) :
    Nat → List Nat → Option (List α × List Nat)
  | 0, bs => some ([], bs)
  | k + 1, bs =>
    (readElem bs).bind fun xb =>
      (readCount readElem k xb.2).bind fun xsb =>
        some (xb.1 :: xsb.1, xsb.2)

/-- A `Pubkey` is encoded as its 32 raw bytes. -/
def encodePubkey (pk : Pubkey) : List Nat := natToLE 32 pk

def readPubkey (bs : List Nat) : Option (Pubkey × List Nat) := readNat 32 bs

/-- Bincode `Vec<T>`: `u64` length then the encoded elements. -/
def encodeVec (enc : α → List Nat) (l : List α) : List Nat :=
  natToLE 8 l.length ++ (l.map enc).flatten

/-- One `(Pubkey, Vec<Pubkey>)` pair. -/
def encodePair (p : Pubkey × List Pubkey) : List Nat :=
  encodePubkey p.1 ++ encodeVec encodePubkey p.2

def readVecPubkeys (bs : List Nat) : Option (List Pubkey × List Nat) :=
  (readNat 8 bs).bind fun lb => readCount readPubkey lb.1 lb.2

def readPair (bs : List Nat) : Option ((Pubkey × List Pubkey) × List Nat) :=
  (readPubkey bs).bind fun pb =>
    (readVecPubkeys pb.2).bind fun vb => some ((pb.1, vb.1), vb.2)

/-- `ALTStore::serialize_binary`: the bincode bytes of `BinaryALTData`, whose
`data` field lists the map's `(Pubkey, Vec<Pubkey>)` pairs. -/
def serialize_binary (m : ALTMap) : List Nat :=
  encodeVec encodePair m

/-- Bincode decoding of `BinaryALTData` (the `data` field).  `bincode 1.x`'s
`deserialize` does not reject trailing bytes, so the remainder is dropped. -/
def deserializeBinary (bs : List Nat) : Option ALTMap :=
  (readNat 8 bs).bind fun lb =>
    (readCount readPair lb.1 lb.2).bind fun pb => some pb.1

/-- `ALTStore::load_binary`: decode (`.unwrap()`, hence `.error` on a decode
failure) and insert every decoded pair into the current map. -/
def load_binary (m : ALTMap) (binary_data : List Nat) : Except Unit ALTMap :=
  match deserializeBinary binary_data with
  | none => .error ()
  | some pairs => .ok (pairs.foldl (fun acc p => mapInsert acc p.1 p.2) m)

theorem readCount_encoded (enc : α → List Nat)
    (readElem : List Nat → Option (α × List Nat)) (l : List α)
    (hElem : ∀ x ∈ l, ∀ rest, readElem (enc x ++ rest) = some (x, rest)) :
    ∀ rest, readCount readElem l.length ((l.map enc).flatten ++ rest) =
      some (l, rest) := by
  induction l with
  | nil => intro rest; rfl
  | cons x xs ih =>
    intro rest
    simp only [List.map_cons, List.flatten_cons, List.length_cons,
      List.append_assoc]
    rw [readCount, hElem x (by simp) _, Option.some_bind,
      ih (fun y hy => hElem y (by simp [hy])) rest, Option.some_bind]

theorem readPubkey_encodePubkey (pk : Pubkey) (rest : List Nat)
    (h : pk < 256 ^ 32) : readPubkey (encodePubkey pk ++ rest) =
      some (pk, rest) :=
  readNat_natToLE 32 pk rest h

theorem readVecPubkeys_encodeVec (l : List Pubkey) (rest : List Nat)
    (hlen : l.length < 256 ^ 8) (hel : ∀ pk ∈ l, pk < 256 ^ 32) :
    readVecPubkeys (encodeVec encodePubkey l ++ rest) = some (l, rest) := by
  rw [readVecPubkeys, encodeVec, List.append_assoc,
    readNat_natToLE 8 l.length _ hlen, Option.some_bind]
  exact readCount_encoded encodePubkey readPubkey l
    (fun x hx r => readPubkey_encodePubkey x r (hel x hx)) rest

theorem readPair_encodePair (p : Pubkey × List Pubkey) (rest : List Nat)
    (hk : p.1 < 256 ^ 32) (hlen : p.2.length < 256 ^ 8)
    (hel : ∀ pk ∈ p.2, pk < 256 ^ 32) :
    readPair (encodePair p ++ rest) = some (p, rest) := by
  rw [readPair, encodePair, List.append_assoc,
    readPubkey_encodePubkey p.1 _ hk, Option.some_bind,
    readVecPubkeys_encodeVec p.2 rest hlen hel, Option.some_bind]

/-- Bounds under which the bincode encoding is faithful: every pubkey fits in
32 bytes and every length in a `u64` (trivially true of the Rust values). -/
def snapshotBounded (m : ALTMap) : Prop :=
  m.length < 256 ^ 8 ∧
    ∀ p ∈ m, p.1 < 256 ^ 32 ∧ p.2.length < 256 ^ 8 ∧
      ∀ pk ∈ p.2, pk < 256 ^ 32

instance (m : ALTMap) : Decidable (snapshotBounded m) := by
  unfold snapshotBounded
  infer_instance

theorem deserializeBinary_serialize_binary (m : ALTMap)
    (hb : snapshotBounded m) :
    deserializeBinary (serialize_binary m) = some m := by
  obtain ⟨hlen, hel⟩ := hb
  rw [deserializeBinary, serialize_binary, encodeVec,
    readNat_natToLE 8 m.length _ hlen, Option.some_bind,
    show (List.map encodePair m).flatten =
      (List.map encodePair m).flatten ++ [] by simp,
    readCount_encoded encodePair readPair m
      (fun x hx r => readPair_encodePair x r (hel x hx).1 (hel x hx).2.1
        (hel x hx).2.2) []]
  rfl

/-- Inserting the pairs of `load_binary` does not touch keys outside the
decoded snapshot. -/
theorem foldl_mapInsert_notMem (pairs : List (Pubkey × List Pubkey))
    (m : ALTMap) (k : Pubkey) (hk : k ∉ pairs.map Prod.fst) :
    mapLookup (pairs.foldl (fun acc p => mapInsert acc p.1 p.2) m) k =
      mapLookup m k := by
  induction pairs generalizing m with
  | nil => rfl
  | cons p rest ih =>
    simp only [List.map_cons, List.mem_cons, not_or] at hk
    rw [List.foldl_cons, ih _ hk.2, mapLookup_mapInsert_ne _ _ _ _ hk.1]

/-- Inserting the pairs of a snapshot with distinct keys reproduces each
binding. -/
theorem foldl_mapInsert_mem (pairs : List (Pubkey × List Pubkey))
    (m : ALTMap) (hnd : (pairs.map Prod.fst).Nodup) (p : Pubkey × List Pubkey)
    (hp : p ∈ pairs) :
    mapLookup (pairs.foldl (fun acc q => mapInsert acc q.1 q.2) m) p.1 =
      some p.2 := by
  induction pairs generalizing m with
  | nil => exact absurd hp (List.not_mem_nil p)
  | cons q rest ih =>
    simp only [List.map_cons, List.nodup_cons] at hnd
    rcases List.mem_cons.mp hp with hp | hp
    · subst hp
      rw [List.foldl_cons,
        foldl_mapInsert_notMem rest (mapInsert m p.1 p.2) p.1 hnd.1,
        mapLookup_mapInsert_self]
    · rw [List.foldl_cons]
      exact ih _ hnd.2 hp

/-! ## Fastest-wins block multiplexer -/

/-- Modelled from the spec: the body of
`geyser_grpc_connector::grpcmultiplex_fastestwins::create_multiplexed_stream`
(called per commitment level in grpc_mutliplex.rs) is not under `src/`.
Spec 4.B: maintain a highest-emitted-slot watermark `W`; when any source
produces `(slot, target)` with `slot > W`, emit it and set `W := slot`;
discard otherwise.  The input list is the merged arrival sequence of the
extracted `(Slot, Target)` pairs of all sources of one commitment level; the
watermark starts unset. -/
def multiplexEmit (w : Option Nat) : List (Nat × α) → List (Nat × α)
  | [] => []
  | (slot, target) :: rest =>
    if w.all (fun v => decide (v < slot)) then
      (slot, target) :: multiplexEmit (some slot) rest
    else
      multiplexEmit w rest

/-- The multiplexed stream of one commitment level, as produced by
`create_multiplexed_stream` on the merged source arrivals. -/
def multiplexedStream (arrivals : List (Nat × α)) : List (Nat × α) :=
  multiplexEmit none arrivals

theorem multiplexEmit_chain_and_bound (l : List (Nat × α)) : ∀ w : Option Nat,
    ((multiplexEmit w l).map Prod.fst).Chain' (· < ·) ∧
      ∀ e ∈ multiplexEmit w l, ∀ v, w = some v → v < e.1 := by
  induction l with
  | nil => exact fun w => ⟨List.chain'_nil, by simp [multiplexEmit]⟩
  | cons p rest ih =>
    intro w
    obtain ⟨slot, target⟩ := p
    rw [multiplexEmit]
    by_cases hc : w.all (fun v => decide (v < slot)) = true
    · rw [if_pos hc]
      obtain ⟨ihc, ihb⟩ := ih (some slot)
      constructor
      · rw [List.map_cons, List.chain'_cons']
        exact ⟨fun y hy => by
          rcases List.mem_map.mp (List.mem_of_mem_head? hy) with ⟨e, he, hey⟩
          exact hey ▸ ihb e he slot rfl, ihc⟩
      · intro e he v hv
        subst hv
        simp only [Option.all_some, decide_eq_true_eq] at hc
        rcases List.mem_cons.mp he with he | he
        · exact he ▸ hc
        · exact hc.trans (ihb e he slot rfl)
    · rw [if_neg hc]
      exact ⟨(ih w).1, (ih w).2⟩

/-! ## Percentile utility (histogram_percentiles.rs)

`f64`/`f32` are modelled as `ℚ`; the utility only copies, compares, sums and
divides by 100, and every concrete constant in the settled claims is exactly
representable. -/

/-- The ways the utility can panic: a failed
`assert!(is_monotonic, "array of values must be sorted")`, or an
out-of-bounds `Vec` index. -/
inductive PanicKind where
  | assertFail
  | indexOob
deriving DecidableEq

structure Point where
  priority : ℚ
  value : ℚ
deriving DecidableEq

structure HistValue where
  percentile : ℚ
  value : ℚ
deriving DecidableEq

structure Percentiles where
  v : List ℚ
  p : List ℚ
deriving DecidableEq

structure PercentilesCummulative where
  bucket_values : List ℚ
  percentiles : List ℚ
deriving DecidableEq

/-- The step constant of both functions. -/
def pStep : Nat := 5

/-- The percentile grid of both functions: 0, 5, ..., 100. -/
def percentileSteps : List Nat :=
  (List.range 21).map (fun i => i * pStep)

/-- The monotonicity check of `calculate_percentiles`. -/
def isMonotonicQ : List ℚ → Bool
  | [] => true
  | [_] => true
  | a :: b :: rest => if a ≤ b then isMonotonicQ (b :: rest) else false

theorem isMonotonicQ_iff_chain (l : List ℚ) :
    isMonotonicQ l = true ↔ l.Chain' (· ≤ ·) := by
  match l with
  | [] => simp [isMonotonicQ]
  | [a] => simp [isMonotonicQ]
  | a :: b :: rest =>
    rw [isMonotonicQ, List.chain'_cons]
    by_cases hab : a ≤ b
    · rw [if_pos hab, isMonotonicQ_iff_chain (b :: rest)]
      tauto
    · rw [if_neg hab]
      simp [hab]

/-- `calculate_percentiles`.  The empty input returns empty vectors; an
unsorted input fails the assertion; otherwise each percentile `p` picks
`input[min(len * p / 100, len - 1)]` and records `p / 100`. -/
def calculate_percentiles (input : List ℚ) : Except PanicKind Percentiles :=
  if input.isEmpty then .ok ⟨[], []⟩
  else if isMonotonicQ input then
    .ok ⟨percentileSteps.map (fun p =>
          input.getD (min (input.length * p / 100) (input.length - 1)) 0),
        percentileSteps.map (fun p => (p : ℚ) / 100)⟩
  else .error .assertFail

/-- The monotonicity check of `calculate_cummulative`. -/
def isMonotonicPts : List Point → Bool
  | [] => true
  | [_] => true
  | a :: b :: rest =>
    if a.priority ≤ b.priority then isMonotonicPts (b :: rest) else false

theorem isMonotonicPts_iff_chain (l : List Point) :
    isMonotonicPts l = true ↔
      l.Chain' (fun a b => a.priority ≤ b.priority) := by
  match l with
  | [] => simp [isMonotonicPts]
  | [a] => simp [isMonotonicPts]
  | a :: b :: rest =>
    rw [isMonotonicPts, List.chain'_cons]
    by_cases hab : a.priority ≤ b.priority
    · rw [if_pos hab, isMonotonicPts_iff_chain (b :: rest)]
      tauto
    · rw [if_neg hab]
      simp [hab]

/-- The inner while loop of `calculate_cummulative`: advance `index` while
`agg` is below the target, accumulating values; reading past the end of the
vector is a panic (`none`). -/
def advance (pts : List Point) (target : ℚ) (idx : Nat) (agg : ℚ) :
    Option (Nat × ℚ) :=
  if agg < target then
    match h : pts.get? (idx + 1) with
    | none => none
    | some pt => advance pts target (idx + 1) (agg + pt.value)
  else some (idx, agg)
termination_by pts.length - idx
decreasing_by
  have := (List.get?_eq_some.mp h).1
  omega

/-- The percentile fold of `calculate_cummulative`: `index` and `agg` persist
across the percentile iterations.  The target `total * p / 100` is exact
rational arithmetic where the source computes
`(value_sum * *percentile) / 100.0` in `f64`; IEEE rounding can push the
source's target above `value_sum` even for nonnegative values, so the source
can abort out of bounds on inputs whose exact target never exceeds the sum —
no theorem below relies on this loop staying in bounds. -/
def runPercentiles (pts : List Point) (total : ℚ) :
    List Nat → Nat → ℚ → Option (List HistValue)
  | [], _, _ => some []
  | p :: rest, idx, agg =>
    (advance pts (total * (p : ℚ) / 100) idx agg).bind fun ia =>
      (pts.get? ia.1).bind fun pt =>
        (runPercentiles pts total rest ia.1 ia.2).bind fun hs =>
          some (⟨(p : ℚ), pt.priority⟩ :: hs)

/-- `calculate_cummulative`.  The empty input returns empty vectors; an
unsorted input fails the assertion; otherwise for each percentile the loop
advances until the running sum reaches `value_sum * p / 100` and records the
priority at the reached index.  The sums and targets are exact rationals:
aborts of the `f64` source caused purely by rounding (the single nonnegative
value 1.299999999999557 makes `(value_sum * 100.0) / 100.0` round above
`value_sum` and the loop index run past the end) cannot be reached in this
model, which is why only the assertion behaviour of this function is claimed
positively. -/
def calculate_cummulative (fees_spent_in_block : List Point) :
    Except PanicKind PercentilesCummulative :=
  match fees_spent_in_block with
  | [] => .ok ⟨[], []⟩
  | p0 :: _ =>
    if isMonotonicPts fees_spent_in_block then
      let value_sum : ℚ := (fees_spent_in_block.map Point.value).sum
      match runPercentiles fees_spent_in_block value_sum percentileSteps 0
          p0.value with
      | none => .error .indexOob
      | some dist =>
        .ok ⟨dist.map HistValue.value,
          dist.map (fun fee_point => fee_point.percentile / 100)⟩
    else .error .assertFail

/-! ## Supporting lemmas for the claim theorems -/

theorem indexAll_ok (table : List Pubkey) (accounts : List Nat)
    (h : ∀ i ∈ accounts, i < table.length) :
    indexAll table accounts = .ok (accounts.map (fun i => table.getD i 0)) := by
  induction accounts with
  | nil => rfl
  | cons i rest ih =>
    have hi : i < table.length := h i (by simp)
    rw [indexAll, List.get?_eq_get hi, ih (fun j hj => h j (by simp [hj]))]
    simp [List.getD_eq_getElem?_getD, List.getElem?_eq_getElem hi]

theorem mapLookup_eq_none (m : ALTMap) (k : Pubkey)
    (hk : k ∉ m.map Prod.fst) : mapLookup m k = none := by
  have hfind : List.find? (fun p => p.1 == k) m = none := by
    rw [List.find?_eq_none]
    intro p hp hpk
    rw [beq_iff_eq] at hpk
    exact hk (List.mem_map.mpr ⟨p, hp, hpk⟩)
  rw [mapLookup, hfind]
  rfl

theorem mapLookup_of_mem_nodup (m : ALTMap) (hnd : (m.map Prod.fst).Nodup)
    (p : Pubkey × List Pubkey) (hp : p ∈ m) : mapLookup m p.1 = some p.2 := by
  induction m with
  | nil => exact absurd hp (List.not_mem_nil p)
  | cons q rest ih =>
    simp only [List.map_cons, List.nodup_cons] at hnd
    rcases List.mem_cons.mp hp with hp | hp
    · subst hp
      rw [mapLookup, List.find?_cons_of_pos _ (by simp)]
      rfl
    · have hq : q.1 ≠ p.1 := by
        intro he
        exact hnd.1 (he ▸ List.mem_map.mpr ⟨p, hp, rfl⟩)
      rw [mapLookup, List.find?_cons_of_neg _ (by simp [hq])]
      exact ih hnd.2 hp

theorem except_isOk_ok (a : α) : (Except.ok a : Except ε α).isOk = true := rfl

theorem except_isOk_error (e : ε) :
    (Except.error e : Except ε α).isOk = false := rfl

/-! ## Claim theorems -/

/-- C1: the claim says `get_accounts` never aborts — a resolution failure
after the single reload attempt always yields `[]`.  The code only returns
`[]` when the table is absent from the map; when the cached table is present
but a requested index is still `>=` its length after the failed reload,
`alt_account[*i as usize]` panics.  Evaluation at the failing input: cached
table of length 1 at address 1, requested index byte 5, reload fetch failing:
`get_accounts` aborts instead of returning `[]`. -/
theorem get_accounts_aborts_after_failed_reload :
    get_accounts (fun _ => none) (fun _ => none) [(1, [10])] 1 [5] =
      .error () := by
  decide

/-- C2: for a cached table and index bytes all below the cached length,
`get_accounts` returns exactly the table entries at those indexes, in input
order, with the map unchanged and the result independent of the upstream
oracles (no reload is triggered). -/
theorem get_accounts_cached_no_reload (fetch : Pubkey → Option (List Nat))
    (deser : List Nat → Option (List Pubkey)) (m : ALTMap) (alt : Pubkey)
    (accounts : List Nat) (table : List Pubkey)
    (hm : mapLookup m alt = some table)
    (hidx : ∀ i ∈ accounts, i < table.length) :
    get_accounts fetch deser m alt accounts =
      .ok (accounts.map (fun i => table.getD i 0), m) := by
  have hdo : doReload m alt accounts = false := by
    rw [doReload, hm]
    simp only [List.any_eq_false, decide_eq_true_eq]
    intro x hx
    have := hidx x hx
    omega
  simp [get_accounts, load_accounts, hdo, hm, indexAll_ok table accounts hidx]

/-- Witness for C2 at a concrete store. -/
theorem get_accounts_cached_no_reload_witness :
    get_accounts (fun _ => none) (fun _ => none) [(1, [10, 11, 12])] 1
        [2, 0] = .ok ([12, 10], [(1, [10, 11, 12])]) :=
  get_accounts_cached_no_reload _ _ _ _ _ [10, 11, 12] (by decide) (by decide)

/-- C6: when the upstream fetch of `reload_alt_account` fails (transport
error or account not found), the map is returned exactly as it was. -/
theorem reload_failure_keeps_map (fetch : Pubkey → Option (List Nat))
    (deser : List Nat → Option (List Pubkey)) (m : ALTMap) (address : Pubkey)
    (h : fetch address = none) :
    reload_alt_account fetch deser m address = .ok m := by
  simp [reload_alt_account, h]

/-- Witness for C6 at a concrete store. -/
theorem reload_failure_keeps_map_witness :
    reload_alt_account (fun _ => none) (fun _ => none) [(1, [2])] 7 =
      .ok [(1, [2])] :=
  reload_failure_keeps_map _ _ _ _ rfl

/-- C7: if the raw bytes decode, `save_account` overwrites the cached entry
for the address with the decoded address list and leaves every other key's
binding unchanged; if they do not decode, the unconditional `unwrap` panics
and no updated map is produced. -/
theorem save_account_overwrite_or_panic
    (deser : List Nat → Option (List Pubkey)) (m : ALTMap) (address : Pubkey)
    (data : List Nat) :
    (∀ addresses, deser data = some addresses →
      ∃ m', save_account deser m address data = .ok m' ∧
        mapLookup m' address = some addresses ∧
        ∀ k, k ≠ address → mapLookup m' k = mapLookup m k) ∧
    (deser data = none → save_account deser m address data = .error ()) := by
  constructor
  · intro addresses hd
    refine ⟨mapInsert m address addresses, ?_,
      mapLookup_mapInsert_self _ _ _,
      fun k hk => mapLookup_mapInsert_ne _ _ _ _ hk⟩
    simp [save_account, hd]
  · intro hd
    simp [save_account, hd]

/-- Witness for C7: both branches at a concrete decoder. -/
theorem save_account_overwrite_or_panic_witness :
    (∃ m', save_account (fun b => if b = [0] then some [9] else none)
        [(1, [2])] 1 [0] = .ok m' ∧ mapLookup m' 1 = some [9] ∧
        ∀ k, k ≠ 1 → mapLookup m' k = mapLookup [(1, [2])] k) ∧
      save_account (fun b => if b = [0] then some [9] else none)
        [(1, [2])] 1 [1] = .error () :=
  ⟨(save_account_overwrite_or_panic _ _ _ _).1 [9] rfl,
    (save_account_overwrite_or_panic _ _ _ _).2 rfl⟩

/-- C3: restoring a snapshot into a fresh store
(`load_binary(serialize_binary())` applied to an empty map) reproduces the
original pubkey-to-address-list map, for every map whose keys are distinct
(as those of a `DashMap` are) and whose values fit the wire widths. -/
theorem serialize_load_roundtrip (m : ALTMap) (hb : snapshotBounded m)
    (hnd : (m.map Prod.fst).Nodup) :
    ∃ m', load_binary [] (serialize_binary m) = .ok m' ∧
      ∀ k, mapLookup m' k = mapLookup m k := by
  refine ⟨_, by rw [load_binary, deserializeBinary_serialize_binary m hb],
    fun k => ?_⟩
  by_cases hk : k ∈ m.map Prod.fst
  · obtain ⟨p, hp, hpk⟩ := List.mem_map.mp hk
    subst hpk
    rw [foldl_mapInsert_mem m [] hnd p hp, mapLookup_of_mem_nodup m hnd p hp]
  · rw [foldl_mapInsert_notMem m [] k hk, mapLookup_eq_none m k hk]
    rfl

/-- Witness for C3 at a concrete two-entry map. -/
theorem serialize_load_roundtrip_witness :
    ∃ m', load_binary [] (serialize_binary [(1, [2]), (3, [])]) = .ok m' ∧
      ∀ k, mapLookup m' k = mapLookup [(1, [2]), (3, [])] k :=
  serialize_load_roundtrip [(1, [2]), (3, [])] (by decide) (by decide)

/-- C10: `load_binary` merges the decoded snapshot into the current map
without clearing it: it inserts every decoded pair (reproducing each binding
when the snapshot keys are distinct), and every key that does not occur in
the snapshot keeps its previous binding. -/
theorem load_binary_merges (m : ALTMap) (bs : List Nat) (pairs : ALTMap)
    (hdec : deserializeBinary bs = some pairs) :
    ∃ m', load_binary m bs = .ok m' ∧
      (∀ k, k ∉ pairs.map Prod.fst → mapLookup m' k = mapLookup m k) ∧
      ((pairs.map Prod.fst).Nodup →
        ∀ p ∈ pairs, mapLookup m' p.1 = some p.2) :=
  ⟨_, by rw [load_binary, hdec],
    fun k hk => foldl_mapInsert_notMem pairs m k hk,
    fun hnd p hp => foldl_mapInsert_mem pairs m hnd p hp⟩

/-- Witness for C10: a snapshot holding key 1 merged over a store holding
key 5. -/
theorem load_binary_merges_witness :
    ∃ m', load_binary [(5, [6])] (serialize_binary [(1, [2])]) = .ok m' ∧
      (∀ k, k ∉ (([(1, [2])] : ALTMap).map Prod.fst) →
        mapLookup m' k = mapLookup [(5, [6])] k) ∧
      ((([(1, [2])] : ALTMap).map Prod.fst).Nodup →
        ∀ p ∈ ([(1, [2])] : ALTMap), mapLookup m' p.1 = some p.2) :=
  load_binary_merges [(5, [6])] (serialize_binary [(1, [2])]) [(1, [2])]
    (by decide)

/-- C4: the slots emitted by the multiplexed block stream of one commitment
level are strictly increasing, and hence no slot is emitted twice at the same
commitment (each commitment level runs its own instance of the multiplexer,
so at-most-once per `(slot, commitment)` follows). -/
theorem multiplex_monotonic_dedup (arrivals : List (Nat × β)) :
    ((multiplexedStream arrivals).map Prod.fst).Pairwise (· < ·) ∧
      ((multiplexedStream arrivals).map Prod.fst).Nodup := by
  have h := (multiplexEmit_chain_and_bound arrivals (none : Option Nat)).1
  have hp := List.chain'_iff_pairwise.mp h
  exact ⟨hp, hp.imp Nat.ne_of_lt⟩

/-- C5: `load_alts_list` fetches exactly the addresses missing from the map,
in rounds of at most 1000 addresses, each round split into at most 10
concurrent batches of at most 100 addresses, and the per-round timeout
constant is 60 seconds. -/
theorem load_alts_list_batching (m : ALTMap) (alts_list : List Pubkey) :
    ((load_alts_list_plan m alts_list).map List.flatten).flatten =
        alts_list.filter (fun x => (mapLookup m x).isNone) ∧
      (∀ round ∈ load_alts_list_plan m alts_list,
        round.length ≤ 10 ∧ round.flatten.length ≤ 1000 ∧
          ∀ batch ∈ round, batch.length ≤ 100) ∧
      loadAltsRoundTimeoutSecs = 60 := by
  refine ⟨?_, fun round hr => ?_, rfl⟩
  · rw [load_alts_list_plan, List.map_map]
    simp only [Function.comp_def]
    rw [List.map_congr_left
      (fun c hc => chunksOf_flatten 100 c (by norm_num) :
        ∀ c ∈ chunksOf 1000 (alts_list.filter
          (fun x => (mapLookup m x).isNone)), (chunksOf 100 c).flatten = c)]
    rw [List.map_id', chunksOf_flatten 1000 _ (by norm_num)]
  · rw [load_alts_list_plan] at hr
    obtain ⟨c, hc, rfl⟩ := List.mem_map.mp hr
    have hclen : c.length ≤ 1000 := mem_chunksOf_length_le 1000 _ c hc
    refine ⟨chunksOf_length_le 100 10 c (by norm_num) (by omega), ?_,
      fun batch hb => mem_chunksOf_length_le 100 c batch hb⟩
    rw [chunksOf_flatten 100 c (by norm_num)]
    exact hclen

/-- C8 counterexample: a sorted one-point input with a negative value passes
the assertion of `calculate_cummulative` but aborts with an out-of-bounds
index in the accumulation loop, so "for every sorted input the assertion
passes and the function returns normally" is false as stated. -/
theorem calculate_cummulative_sorted_abort :
    List.Chain' (fun a b => a.priority ≤ b.priority) [Point.mk 0 (-1)] ∧
      calculate_cummulative [Point.mk 0 (-1)] = .error .indexOob := by
  refine ⟨List.chain'_singleton _, ?_⟩
  have hsteps : percentileSteps = 0 :: [5, 10, 15, 20, 25, 30, 35, 40, 45, 50,
      55, 60, 65, 70, 75, 80, 85, 90, 95, 100] := by decide
  have hadv : advance [Point.mk 0 (-1)]
      ((List.map Point.value [Point.mk 0 (-1)]).sum * ((0 : Nat) : ℚ) / 100) 0
      (Point.mk 0 (-1)).value = none := by
    rw [advance, if_pos]
    · rfl
    · norm_num
  simp only [calculate_cummulative,
    if_pos (show isMonotonicPts [Point.mk 0 (-1)] = true from rfl)]
  rw [hsteps, runPercentiles, hadv, Option.none_bind]

/-- C8 (amended): a non-empty unsorted input makes `calculate_percentiles`
(and `calculate_cummulative`, ordered by the priority field) abort via the
assertion; for every sorted input the assertion passes: `calculate_percentiles`
then returns normally, and `calculate_cummulative` produces the assertion
failure exactly on unsorted inputs — but, contrary to the original claim, it
need not return normally on sorted input: the accumulation loop can still
abort on an out-of-bounds index (with negative values, and in the `f64`
source through rounding even for some nonnegative values). -/
theorem percentile_monotonic_assert (l : List ℚ) (pts : List Point) :
    ((calculate_percentiles l).isOk = true ↔ l.Chain' (· ≤ ·)) ∧
      (¬ l.Chain' (· ≤ ·) →
        calculate_percentiles l = .error .assertFail) ∧
      (calculate_cummulative pts = .error .assertFail ↔
        ¬ pts.Chain' (fun a b => a.priority ≤ b.priority)) := by
  have hA : (calculate_percentiles l).isOk = true ↔ l.Chain' (· ≤ ·) := by
    rw [calculate_percentiles]
    by_cases hemp : l.isEmpty = true
    · rw [if_pos hemp]
      have hnil : l = [] := by simpa [List.isEmpty_iff] using hemp
      subst hnil
      simp [except_isOk_ok]
    · rw [if_neg hemp]
      by_cases hmono : isMonotonicQ l = true
      · rw [if_pos hmono]
        simp [except_isOk_ok, (isMonotonicQ_iff_chain l).mp hmono]
      · rw [if_neg hmono]
        simp only [except_isOk_error, Bool.false_eq_true, false_iff]
        intro hc
        exact hmono ((isMonotonicQ_iff_chain l).mpr hc)
  have hD : ∀ q0 qrest, isMonotonicPts (q0 :: qrest) = true →
      calculate_cummulative (q0 :: qrest) ≠ .error .assertFail := by
    intro q0 qrest hmono heq
    simp only [calculate_cummulative, if_pos hmono] at heq
    cases hrun : runPercentiles (q0 :: qrest)
        ((List.map Point.value (q0 :: qrest)).sum) percentileSteps 0
        q0.value with
    | none =>
      rw [hrun] at heq
      simp at heq
    | some dist =>
      rw [hrun] at heq
      simp at heq
  refine ⟨hA, fun hc => ?_, ?_, ?_⟩
  · have hne : l.isEmpty = false := by
      cases l with
      | nil => exact absurd List.chain'_nil hc
      | cons a rest => rfl
    cases hbool : isMonotonicQ l with
    | true => exact absurd ((isMonotonicQ_iff_chain l).mp hbool) hc
    | false =>
      rw [calculate_percentiles, if_neg (by simp [hne]),
        if_neg (by simp [hbool])]
  · intro heq hchain
    cases pts with
    | nil => simp [calculate_cummulative] at heq
    | cons p0 rest =>
      exact hD p0 rest ((isMonotonicPts_iff_chain (p0 :: rest)).mpr hchain) heq
  · intro hc
    cases pts with
    | nil => exact absurd List.chain'_nil hc
    | cons p0 rest =>
      cases hbool : isMonotonicPts (p0 :: rest) with
      | true =>
        exact absurd ((isMonotonicPts_iff_chain (p0 :: rest)).mp hbool) hc
      | false =>
        simp only [calculate_cummulative]
        rw [if_neg (by simp [hbool])]

/-- Witness for the amended C8: a concrete unsorted two-point input makes
`calculate_cummulative` fail the assertion. -/
theorem percentile_monotonic_assert_witness :
    calculate_cummulative [Point.mk 1 0, Point.mk 0 0] =
      .error .assertFail :=
  (percentile_monotonic_assert [] [Point.mk 1 0, Point.mk 0 0]).2.2.mpr
    (by
      rw [List.chain'_cons]
      rintro ⟨h, -⟩
      norm_num at h)

/-- C9: on the sorted input `[30, 33, 43, 53, 56, 67, 68, 72]` with the fixed
step of 5, `calculate_percentiles` returns bucket value 43 and percentile
1/4 (= 0.25) at index 5. -/
theorem percentile_boundary_statisticshowto :
    ∃ r, calculate_percentiles [30, 33, 43, 53, 56, 67, 68, 72] = .ok r ∧
      r.v.get? 5 = some 43 ∧ r.p.get? 5 = some (1 / 4) := by
  have hmono : isMonotonicQ [30, 33, 43, 53, 56, 67, 68, 72] = true := by
    rw [isMonotonicQ_iff_chain]
    norm_num
  have hsteps : percentileSteps = [0, 5, 10, 15, 20, 25, 30, 35, 40, 45, 50,
      55, 60, 65, 70, 75, 80, 85, 90, 95, 100] := by decide
  rw [calculate_percentiles, if_neg (by simp), if_pos hmono]
  refine ⟨_, rfl, rfl, ?_⟩
  simp only [hsteps, List.map_cons, List.get?]
  norm_num [pStep]
